import Mathlib

/-!
# Verification of the habit-tracker backend

Shallow embedding of the data model and the algorithms of the
habit-tracker backend (Django/DRF application under `backend/`):

* the streak computations shared by `habits/views.py` (`HabitViewSet.stats`,
  lines 163-182) and `journal/views.py` (`JournalEntryViewSet.stats`,
  lines 211-230); the two views run textually identical code, so a single
  embedding covers both;
* the weekly completion-rate bucket computation of `HabitViewSet.stats`
  (lines 184-205);
* `Goal.progress_percentage` (`goals/models.py` lines 125-130) and the
  per-goal percentage of `GoalViewSet.stats` (`goals/views.py` lines 191-195);
* the `GoalProgress` endpoints (`GoalProgressViewSet`, `goals/views.py`
  lines 241-349) with their current_value bookkeeping, as a state machine
  over in-memory tables;
* the `HabitLog` endpoints (`HabitLogViewSet`, `habits/views.py` lines
  242-317) with the `unique_together` constraint of `HabitLog.Meta`
  (`habits/models.py` lines 140-144);
* the create pipelines of `GoalViewSet`, `HabitViewSet` and
  `JournalEntryViewSet` (serializer field handling plus `perform_create`);
* the `HabitSerializer` validation induced by the model fields of
  `habits/models.py` (lines 62-89).

Embedding conventions: calendar dates are integers (day numbers, so `d - 1`
is the previous calendar day and consecutive dates differ by `1`);
`DecimalField` values are rationals; the float arithmetic of the stats
endpoints is modelled by exact rational arithmetic, and the Python builtin
`round` (round half to even) by `pyRound` below.  Database tables are lists
of records; the autoincrement primary key is modelled as max-id-plus-one.
Model fields that no considered claim depends on (descriptions, notes,
timestamps, units, names) are omitted from the record types; they flow
through every operation unchanged and never influence control flow.
-/

namespace HabitTracker

/-! ## Streak computation (habits/views.py lines 163-182, journal/views.py lines 211-230)

Current streak:

    current_streak = 0
    check_date = today
    while check_date in log_dates:
        current_streak += 1
        check_date -= timedelta(days=1)

The `while` loop terminates because each successful iteration visits a fresh
member of the finite set `log_dates`, so it performs at most
`log_dates.card` successful iterations.  The embedding runs the loop body
with an explicit fuel of `dates.card + 1`, which is provably enough:
`currentStreakAux_stop` together with `currentStreakAux_le_card` below shows
the embedded loop stops on a missing day, never on exhausted fuel. -/

def currentStreakAux (dates : Finset ℤ) : ℤ → ℕ → ℕ
  | _, 0 => 0
  | check, fuel + 1 =>
      if check ∈ dates then currentStreakAux dates (check - 1) fuel + 1 else 0

def current_streak (dates : Finset ℤ) (today : ℤ) : ℕ :=
  currentStreakAux dates today (dates.card + 1)

/-- Best streak:

    sorted_dates = sorted(log_dates)
    best_streak = 0
    if sorted_dates:
        streak = 1
        for i in range(1, len(sorted_dates)):
            if sorted_dates[i] - sorted_dates[i-1] == timedelta(days=1):
                streak += 1
            else:
                best_streak = max(best_streak, streak)
                streak = 1
        best_streak = max(best_streak, streak)

`bestStreakLoop prev best streak l` is the `for` loop over the remaining
sorted dates `l`, where `prev` is the previously visited date, followed by
the trailing `best_streak = max(best_streak, streak)`. -/
def bestStreakLoop : ℤ → ℕ → ℕ → List ℤ → ℕ
  | _, best, streak, [] => max best streak
  | prev, best, streak, d :: rest =>
      if d - prev = 1 then bestStreakLoop d best (streak + 1) rest
      else bestStreakLoop d (max best streak) 1 rest

def best_streak (dates : Finset ℤ) : ℕ :=
  match dates.sort (· ≤ ·) with
  | [] => 0
  | d :: rest => bestStreakLoop d 0 1 rest

/-! ## Rounding and percentages -/

/-- Python builtin `round` on an exact rational: round half to even. -/
def pyRound (q : ℚ) : ℤ :=
  if q - ⌊q⌋ < 1 / 2 then ⌊q⌋
  else if 1 / 2 < q - ⌊q⌋ then ⌊q⌋ + 1
  else if 2 ∣ ⌊q⌋ then ⌊q⌋ else ⌊q⌋ + 1

/-- `Goal.progress_percentage` (goals/models.py lines 125-130):

    if self.target_value == 0:
        return 0
    return min(100, (self.current_value / self.target_value) * 100)
-/
def progress_percentage (current_value target_value : ℚ) : ℚ :=
  if target_value = 0 then 0
  else min 100 (current_value / target_value * 100)

/-- Per-goal percentage of `GoalViewSet.stats` (goals/views.py lines 191-195):

    if goal.target_value > 0:
        percentage = min(100, round((float(goal.current_value) / float(goal.target_value)) * 100))
    else:
        percentage = 100 if goal.current_value >= goal.target_value else 0
-/
def stats_goal_percentage (current_value target_value : ℚ) : ℤ :=
  if 0 < target_value then min 100 (pyRound (current_value / target_value * 100))
  else if target_value ≤ current_value then 100 else 0

/-! ## Weekly completion-rate buckets (habits/views.py lines 184-205)

For each of the last 8 weeks the view computes

    days_in_week = (week_end - week_start).days + 1
    total_possible = total_habits * days_in_week
    week_completions = logs.filter(date__gte=week_start, date__lte=week_end).count()
    rate = round((week_completions / total_possible) * 100) if total_possible > 0 else 0
-/

def weekly_possible (total_habits days_in_week : ℕ) : ℕ :=
  total_habits * days_in_week

def weekly_rate (week_completions total_possible : ℕ) : ℤ :=
  if 0 < total_possible then
    pyRound ((week_completions : ℚ) / (total_possible : ℚ) * 100)
  else 0

def weekly_bucket_rate (total_habits days_in_week week_completions : ℕ) : ℤ :=
  weekly_rate week_completions (weekly_possible total_habits days_in_week)

/-! ## GoalProgress endpoints as a state machine (goals/views.py lines 241-349)

Records carry the fields the claims depend on.  A `GoalRec` is a row of the
Goal table (goals/models.py lines 38-135); a `ProgressRec` is a row of the
GoalProgress table (lines 138-193, foreign key `goal`). -/

inductive ApiError
  | validation
  | permissionDenied
  | notFound
  deriving DecidableEq

structure GoalRec where
  id : ℕ
  user : ℕ
  current_value : ℚ
  deriving DecidableEq

structure ProgressRec where
  id : ℕ
  goal : ℕ
  amount : ℚ
  deriving DecidableEq

structure GoalsState where
  goals : List GoalRec
  progresses : List ProgressRec
  deriving DecidableEq

/-- Primary-key lookup in the Goal table (the serializer validates the
`goal` field against `Goal.objects.all()`). -/
def lookupGoal (st : GoalsState) (gid : ℕ) : Option GoalRec :=
  st.goals.find? (fun g => g.id == gid)

/-- Owner of a progress entry: the user of its parent goal. -/
def progressOwner (st : GoalsState) (p : ProgressRec) : Option ℕ :=
  (lookupGoal st p.goal).map (fun g => g.user)

/-- `get_object` on the scoped queryset
`GoalProgress.objects.filter(goal__user=request.user)`
(goals/views.py lines 290-297): the row must match the pk and belong to a
goal of the caller, otherwise the framework raises NotFound. -/
def scopedProgress (st : GoalsState) (caller pid : ℕ) : Option ProgressRec :=
  st.progresses.find? (fun p => p.id == pid && progressOwner st p == some caller)

/-- Autoincrement primary key for the GoalProgress table. -/
def nextProgressId (st : GoalsState) : ℕ :=
  (st.progresses.foldr (fun p m => max p.id m) 0) + 1

/-- Add `delta` to `current_value` of the goal row with primary key `gid`. -/
def addToGoal (goals : List GoalRec) (gid : ℕ) (delta : ℚ) : List GoalRec :=
  goals.map (fun g =>
    if g.id == gid then { g with current_value := g.current_value + delta } else g)

/-- POST /api/goals/progress/ (`perform_create`, goals/views.py lines 299-318):
validate the goal pk, reject foreign goals with PermissionDenied, save the
entry, then add its amount to the parent current_value. -/
def progressCreate (caller gid : ℕ) (amount : ℚ) (st : GoalsState) :
    Except ApiError GoalsState :=
  match lookupGoal st gid with
  | none => .error .validation
  | some g =>
      if g.user ≠ caller then .error .permissionDenied
      else .ok { st with
        progresses := st.progresses ++ [⟨nextProgressId st, gid, amount⟩],
        goals := addToGoal st.goals gid amount }

/-- PUT /api/goals/progress/{pid}/ (`perform_update`, goals/views.py lines
320-336): fetch the entry from the scoped queryset (NotFound when out of
scope), validate the new goal pk, save the new field values, then add
`new_amount - old_amount` to the current_value of the goal the saved entry
now points at.  Note there is no ownership check on the new goal, and when
the goal field changes the old goal is never adjusted. -/
def progressUpdate (caller pid gid : ℕ) (amount : ℚ) (st : GoalsState) :
    Except ApiError GoalsState :=
  match scopedProgress st caller pid with
  | none => .error .notFound
  | some p =>
      match lookupGoal st gid with
      | none => .error .validation
      | some _ =>
          .ok { st with
            progresses := st.progresses.map (fun q =>
              if q.id == pid then ⟨q.id, gid, amount⟩ else q),
            goals := addToGoal st.goals gid (amount - p.amount) }

/-- DELETE /api/goals/progress/{pid}/ (`perform_destroy`, goals/views.py
lines 338-349): fetch from the scoped queryset, subtract the amount from
the parent current_value, delete the row. -/
def progressDelete (caller pid : ℕ) (st : GoalsState) : Except ApiError GoalsState :=
  match scopedProgress st caller pid with
  | none => .error .notFound
  | some p =>
      .ok { st with
        goals := addToGoal st.goals p.goal (-p.amount),
        progresses := st.progresses.filter (fun q => q.id != pid) }

inductive ProgressOp
  | create (caller gid : ℕ) (amount : ℚ)
  | update (caller pid gid : ℕ) (amount : ℚ)
  | delete (caller pid : ℕ)
  deriving DecidableEq

/-- Run one request; a failed request leaves the stored state unchanged
(the mutations above only happen on the `.ok` path). -/
def applyOp (op : ProgressOp) (st : GoalsState) : GoalsState :=
  match op with
  | .create caller gid a =>
      match progressCreate caller gid a st with
      | .ok st2 => st2
      | .error _ => st
  | .update caller pid gid a =>
      match progressUpdate caller pid gid a st with
      | .ok st2 => st2
      | .error _ => st
  | .delete caller pid =>
      match progressDelete caller pid st with
      | .ok st2 => st2
      | .error _ => st

def runOps (ops : List ProgressOp) (st : GoalsState) : GoalsState :=
  ops.foldl (fun s op => applyOp op s) st

/-- Sum of the amounts of the progress entries of goal `gid`. -/
def sumAmounts (ps : List ProgressRec) (gid : ℕ) : ℚ :=
  (ps.filter (fun p => p.goal == gid)).foldr (fun p s => p.amount + s) 0

/-- The progress-sync invariant: every goal row has `current_value` equal to
the sum of the amounts of its progress entries. -/
def checkSync (st : GoalsState) : Bool :=
  st.goals.all (fun g => g.current_value == sumAmounts st.progresses g.id)

/-- Well-formedness: primary keys of the GoalProgress table are distinct. -/
def checkWF (st : GoalsState) : Bool :=
  decide (List.Pairwise (fun p q => p.id ≠ q.id) st.progresses)

/-- An update request keeps the goal field when the entry it will touch
already points at the requested goal (requests that fail change nothing and
trivially keep it). -/
def keepsGoalField (op : ProgressOp) (st : GoalsState) : Bool :=
  match op with
  | .update caller pid gid _ =>
      match scopedProgress st caller pid with
      | some p => p.goal == gid
      | none => true
  | _ => true

def safeOps : List ProgressOp → GoalsState → Bool
  | [], _ => true
  | op :: rest, st => keepsGoalField op st && safeOps rest (applyOp op st)

/-! ## HabitLog endpoints as a state machine (habits/views.py lines 242-317)

`HabitLog.Meta` (habits/models.py lines 140-144) declares
`unique_together = [habit, date]`; the model serializer derives the
corresponding uniqueness validator from it, so a duplicate is rejected
during validation (HTTP 400). -/

structure HabitRec where
  id : ℕ
  user : ℕ
  deriving DecidableEq

structure LogRec where
  id : ℕ
  habit : ℕ
  date : ℤ
  deriving DecidableEq

structure HabitsState where
  habits : List HabitRec
  logs : List LogRec
  deriving DecidableEq

def lookupHabit (st : HabitsState) (hid : ℕ) : Option HabitRec :=
  st.habits.find? (fun h => h.id == hid)

def logOwner (st : HabitsState) (l : LogRec) : Option ℕ :=
  (lookupHabit st l.habit).map (fun h => h.user)

/-- `get_object` on `HabitLog.objects.filter(habit__user=request.user)`
(habits/views.py lines 291-298). -/
def scopedLog (st : HabitsState) (caller lid : ℕ) : Option LogRec :=
  st.logs.find? (fun l => l.id == lid && logOwner st l == some caller)

def nextLogId (st : HabitsState) : ℕ :=
  (st.logs.foldr (fun l m => max l.id m) 0) + 1

/-- Does any log row carry this (habit, date) pair? -/
def hasLogFor (logs : List LogRec) (hid : ℕ) (d : ℤ) : Bool :=
  logs.any (fun l => l.habit == hid && l.date == d)

/-- Does any log row other than `lid` carry this (habit, date) pair?  The
uniqueness validator excludes the instance being updated. -/
def hasOtherLogFor (logs : List LogRec) (lid hid : ℕ) (d : ℤ) : Bool :=
  logs.any (fun l => l.id != lid && l.habit == hid && l.date == d)

/-- POST /api/habits/logs/ (`perform_create`, habits/views.py lines 300-316):
the serializer validates the habit pk and the (habit, date) uniqueness, then
`perform_create` rejects foreign habits with PermissionDenied and saves. -/
def logCreate (caller hid : ℕ) (d : ℤ) (st : HabitsState) :
    Except ApiError HabitsState :=
  match lookupHabit st hid with
  | none => .error .validation
  | some h =>
      if hasLogFor st.logs hid d then .error .validation
      else if h.user ≠ caller then .error .permissionDenied
      else .ok { st with logs := st.logs ++ [⟨nextLogId st, hid, d⟩] }

/-- PUT /api/habits/logs/{lid}/: scoped fetch, serializer validation
(habit pk, uniqueness excluding the instance), then the default
`perform_update` saves — `HabitLogViewSet` overrides no update hook, so no
ownership check is made on the new habit. -/
def logUpdate (caller lid hid : ℕ) (d : ℤ) (st : HabitsState) :
    Except ApiError HabitsState :=
  match scopedLog st caller lid with
  | none => .error .notFound
  | some _ =>
      match lookupHabit st hid with
      | none => .error .validation
      | some _ =>
          if hasOtherLogFor st.logs lid hid d then .error .validation
          else .ok { st with logs := st.logs.map (fun q =>
            if q.id == lid then ⟨q.id, hid, d⟩ else q) }

/-- DELETE /api/habits/logs/{lid}/: scoped fetch, delete. -/
def logDelete (caller lid : ℕ) (st : HabitsState) : Except ApiError HabitsState :=
  match scopedLog st caller lid with
  | none => .error .notFound
  | some _ => .ok { st with logs := st.logs.filter (fun q => q.id != lid) }

inductive HabitLogOp
  | create (caller hid : ℕ) (d : ℤ)
  | update (caller lid hid : ℕ) (d : ℤ)
  | delete (caller lid : ℕ)
  deriving DecidableEq

def applyHOp (op : HabitLogOp) (st : HabitsState) : HabitsState :=
  match op with
  | .create caller hid d =>
      match logCreate caller hid d st with
      | .ok st2 => st2
      | .error _ => st
  | .update caller lid hid d =>
      match logUpdate caller lid hid d st with
      | .ok st2 => st2
      | .error _ => st
  | .delete caller lid =>
      match logDelete caller lid st with
      | .ok st2 => st2
      | .error _ => st

def runHOps (ops : List HabitLogOp) (st : HabitsState) : HabitsState :=
  ops.foldl (fun s op => applyHOp op s) st

/-- The uniqueness invariant of `HabitLog.Meta`: no two log rows share the
same (habit, date) pair. -/
def checkLogUnique (st : HabitsState) : Bool :=
  decide (List.Pairwise (fun a b => ¬(a.habit = b.habit ∧ a.date = b.date)) st.logs)

/-- Well-formedness: primary keys of the HabitLog table are distinct. -/
def checkHWF (st : HabitsState) : Bool :=
  decide (List.Pairwise (fun a b => a.id ≠ b.id) st.logs)

/-! ## Create pipelines and owner stamping

`GoalSerializer` (goals/serializers.py lines 80-83) lists every model field
and marks `user` read-only; `HabitSerializer` (habits/serializers.py lines
66-69) does the same; `JournalEntrySerializer` (journal/serializers.py
lines 92-95) omits `user` from its field list entirely.  In every case
deserialization discards any client-supplied value for the owner field, and
`perform_create` (goals/views.py lines 141-148, habits/views.py lines
125-132, journal/views.py lines 141-148) calls
`serializer.save(user=self.request.user)`, stamping the owner from the
authenticated caller. -/

structure GoalPayload where
  name : String
  unit : String
  target_value : ℚ
  current_value : ℚ
  user : Option ℕ
  deriving DecidableEq

structure GoalValidated where
  name : String
  unit : String
  target_value : ℚ
  current_value : ℚ
  deriving DecidableEq

structure GoalOut where
  name : String
  unit : String
  target_value : ℚ
  current_value : ℚ
  user : ℕ
  deriving DecidableEq

def goalDeserialize (p : GoalPayload) : GoalValidated :=
  ⟨p.name, p.unit, p.target_value, p.current_value⟩

def goalPerformCreate (caller : ℕ) (v : GoalValidated) : GoalOut :=
  ⟨v.name, v.unit, v.target_value, v.current_value, caller⟩

def goalCreateRecord (caller : ℕ) (p : GoalPayload) : GoalOut :=
  goalPerformCreate caller (goalDeserialize p)

structure HabitPayload where
  name : String
  category : String
  frequency : String
  user : Option ℕ
  deriving DecidableEq

structure HabitValidated where
  name : String
  category : String
  frequency : String
  deriving DecidableEq

structure HabitOut where
  name : String
  category : String
  frequency : String
  user : ℕ
  deriving DecidableEq

def habitDeserialize (p : HabitPayload) : HabitValidated :=
  ⟨p.name, p.category, p.frequency⟩

def habitPerformCreate (caller : ℕ) (v : HabitValidated) : HabitOut :=
  ⟨v.name, v.category, v.frequency, caller⟩

def habitCreateRecord (caller : ℕ) (p : HabitPayload) : HabitOut :=
  habitPerformCreate caller (habitDeserialize p)

structure JournalPayload where
  date : ℤ
  entry_type : String
  mood : String
  content : String
  user : Option ℕ
  deriving DecidableEq

structure JournalValidated where
  date : ℤ
  entry_type : String
  mood : String
  content : String
  deriving DecidableEq

structure JournalOut where
  date : ℤ
  entry_type : String
  mood : String
  content : String
  user : ℕ
  deriving DecidableEq

def journalDeserialize (p : JournalPayload) : JournalValidated :=
  ⟨p.date, p.entry_type, p.mood, p.content⟩

def journalPerformCreate (caller : ℕ) (v : JournalValidated) : JournalOut :=
  ⟨v.date, v.entry_type, v.mood, v.content, caller⟩

def journalCreateRecord (caller : ℕ) (p : JournalPayload) : JournalOut :=
  journalPerformCreate caller (journalDeserialize p)

/-! ## Habit field validation (habits/models.py lines 62-89)

The model declares `category = CharField(max_length=20, choices=CATEGORY_CHOICES)`
but `frequency = CharField(max_length=10)` with NO choices constraint — the
three canonical values appear only in the help text.  `HabitSerializer`
derives its validation from these model fields, so it enforces length and
the category choices but places no choice restriction on frequency. -/

def habitCategories : List String :=
  ["health", "productivity", "learning", "mindfulness", "social"]

def validHabitPayload (name category frequency : String) : Bool :=
  name != "" && name.length ≤ 100 &&
  habitCategories.contains category &&
  frequency != "" && frequency.length ≤ 10


/-! ## Current-streak lemmas -/

theorem currentStreakAux_mem (dates : Finset ℤ) (fuel : ℕ) :
    ∀ (check : ℤ) (j : ℕ), j < currentStreakAux dates check fuel →
      check - (j : ℤ) ∈ dates := by
  induction fuel with
  | zero => intro check j h; simp [currentStreakAux] at h
  | succ fuel ih =>
    intro check j h
    rw [currentStreakAux] at h
    by_cases hc : check ∈ dates
    · rw [if_pos hc] at h
      match j with
      | 0 => simpa using hc
      | j + 1 =>
        have h2 := ih (check - 1) j (by omega)
        have h3 : check - ((j : ℤ) + 1) = check - 1 - (j : ℤ) := by ring
        push_cast
        rw [h3]
        exact h2
    · rw [if_neg hc] at h; omega

theorem currentStreakAux_stop (dates : Finset ℤ) (fuel : ℕ) :
    ∀ check : ℤ, currentStreakAux dates check fuel < fuel →
      check - (currentStreakAux dates check fuel : ℤ) ∉ dates := by
  induction fuel with
  | zero => intro check h; exact absurd h (Nat.not_lt_zero _)
  | succ fuel ih =>
    intro check h
    rw [currentStreakAux] at h ⊢
    by_cases hc : check ∈ dates
    · rw [if_pos hc] at h ⊢
      have h2 := ih (check - 1) (by omega)
      push_cast
      have h3 : check - ((currentStreakAux dates (check - 1) fuel : ℤ) + 1)
          = (check - 1) - (currentStreakAux dates (check - 1) fuel : ℤ) := by ring
      rw [h3]
      exact h2
    · rw [if_neg hc]; simpa using hc

theorem currentStreakAux_le_card (dates : Finset ℤ) (fuel : ℕ) (check : ℤ) :
    currentStreakAux dates check fuel ≤ dates.card := by
  have hmem := currentStreakAux_mem dates fuel check
  have hcard : (Finset.range (currentStreakAux dates check fuel)).card ≤ dates.card := by
    apply Finset.card_le_card_of_injOn (fun j : ℕ => check - (j : ℤ))
    · intro j hj
      exact hmem j (Finset.mem_range.mp hj)
    · intro a _ b _ hab
      simp only at hab
      have : (a : ℤ) = (b : ℤ) := by omega
      exact_mod_cast this
  simpa using hcard

theorem current_streak_mem (dates : Finset ℤ) (today : ℤ) :
    ∀ j : ℕ, j < current_streak dates today → today - (j : ℤ) ∈ dates :=
  fun j hj => currentStreakAux_mem dates (dates.card + 1) today j hj

theorem current_streak_not_mem (dates : Finset ℤ) (today : ℤ) :
    today - (current_streak dates today : ℤ) ∉ dates := by
  apply currentStreakAux_stop
  have := currentStreakAux_le_card dates (dates.card + 1) today
  omega

theorem current_streak_ub (dates : Finset ℤ) (today : ℤ) (k : ℕ)
    (hk : ∀ j : ℕ, j < k → today - (j : ℤ) ∈ dates) :
    k ≤ current_streak dates today := by
  by_contra hlt
  exact current_streak_not_mem dates today (hk _ (by omega))


/-! ## Best-streak lemmas -/

theorem run_flip {dates : Finset ℤ} {k : ℕ} {prev : ℤ}
    (H : ∀ j : ℕ, j < k → prev - (j : ℤ) ∈ dates) :
    ∀ j : ℕ, j < k → (prev - (k : ℤ) + 1) + (j : ℤ) ∈ dates := by
  intro j hj
  have h2 := H (k - 1 - j) (by omega)
  have hc : ((k - 1 - j : ℕ) : ℤ) = (k : ℤ) - 1 - (j : ℤ) := by omega
  rw [hc] at h2
  have he : prev - ((k : ℤ) - 1 - (j : ℤ)) = (prev - (k : ℤ) + 1) + (j : ℤ) := by ring
  rw [he] at h2
  exact h2

theorem run_unflip {dates : Finset ℤ} {k : ℕ} {d prev : ℤ}
    (H : ∀ j : ℕ, j < k → d + (j : ℤ) ∈ dates) (he : d + (k : ℤ) = prev + 1) :
    ∀ m : ℕ, m < k → prev - (m : ℤ) ∈ dates := by
  intro m hm
  have h2 := H (k - 1 - m) (by omega)
  have hc : ((k - 1 - m : ℕ) : ℤ) = (k : ℤ) - 1 - (m : ℤ) := by omega
  rw [hc] at h2
  have he2 : d + ((k : ℤ) - 1 - (m : ℤ)) = prev - (m : ℤ) := by omega
  rw [he2] at h2
  exact h2

theorem le_bestStreakLoop_best (l : List ℤ) :
    ∀ (prev : ℤ) (best streak : ℕ), best ≤ bestStreakLoop prev best streak l := by
  induction l with
  | nil => intro prev best streak; rw [bestStreakLoop]; exact Nat.le_max_left _ _
  | cons d rest ih =>
    intro prev best streak
    rw [bestStreakLoop]
    by_cases hd : d - prev = 1
    · rw [if_pos hd]; exact ih d best (streak + 1)
    · rw [if_neg hd]
      exact le_trans (Nat.le_max_left _ _) (ih d (max best streak) 1)

theorem le_bestStreakLoop_streak (l : List ℤ) :
    ∀ (prev : ℤ) (best streak : ℕ), streak ≤ bestStreakLoop prev best streak l := by
  induction l with
  | nil => intro prev best streak; rw [bestStreakLoop]; exact Nat.le_max_right _ _
  | cons d rest ih =>
    intro prev best streak
    rw [bestStreakLoop]
    by_cases hd : d - prev = 1
    · rw [if_pos hd]
      exact le_trans (Nat.le_succ _) (ih d best (streak + 1))
    · rw [if_neg hd]
      exact le_trans (Nat.le_max_right _ _) (le_bestStreakLoop_best rest d (max best streak) 1)

theorem bestStreakLoop_exists_run (dates : Finset ℤ) (l : List ℤ) :
    ∀ (prev : ℤ) (best streak : ℕ),
      (∀ x ∈ l, x ∈ dates) →
      (∀ j : ℕ, j < streak → prev - (j : ℤ) ∈ dates) →
      (∃ d : ℤ, ∀ j : ℕ, j < best → d + (j : ℤ) ∈ dates) →
      ∃ d : ℤ, ∀ j : ℕ, j < bestStreakLoop prev best streak l → d + (j : ℤ) ∈ dates := by
  induction l with
  | nil =>
    intro prev best streak _ hstreak hbest
    rw [bestStreakLoop]
    by_cases hc : streak ≤ best
    · rw [Nat.max_eq_left hc]; exact hbest
    · rw [Nat.max_eq_right (by omega)]
      exact ⟨prev - (streak : ℤ) + 1, run_flip hstreak⟩
  | cons d rest ih =>
    intro prev best streak hl hstreak hbest
    rw [bestStreakLoop]
    have hdmem : d ∈ dates := hl d (List.mem_cons_self _ _)
    have hl2 : ∀ x ∈ rest, x ∈ dates := fun x hx => hl x (List.mem_cons_of_mem _ hx)
    by_cases hd : d - prev = 1
    · rw [if_pos hd]
      apply ih d best (streak + 1) hl2
      · intro j hj
        match j with
        | 0 => simpa using hdmem
        | j + 1 =>
          have h2 := hstreak j (by omega)
          have he : d - ((j : ℤ) + 1) = prev - (j : ℤ) := by omega
          push_cast
          rw [he]
          exact h2
      · exact hbest
    · rw [if_neg hd]
      apply ih d (max best streak) 1 hl2
      · intro j hj
        have hj0 : j = 0 := by omega
        subst hj0
        simpa using hdmem
      · by_cases hc : streak ≤ best
        · rw [Nat.max_eq_left hc]; exact hbest
        · rw [Nat.max_eq_right (by omega)]
          exact ⟨prev - (streak : ℤ) + 1, run_flip hstreak⟩

theorem bestStreakLoop_ub (dates : Finset ℤ) (l : List ℤ) :
    ∀ (prev : ℤ) (best streak : ℕ),
      List.Pairwise (· < ·) (prev :: l) →
      (∀ x ∈ dates, x ≤ prev ∨ x ∈ l) →
      (∀ m : ℕ, (∀ j : ℕ, j < m → prev - (j : ℤ) ∈ dates) → m ≤ streak) →
      (∀ (k : ℕ) (e : ℤ), (∀ j : ℕ, j < k → e + (j : ℤ) ∈ dates) →
        e + (k : ℤ) ≤ prev → k ≤ max best streak) →
      ∀ (k : ℕ) (e : ℤ), (∀ j : ℕ, j < k → e + (j : ℤ) ∈ dates) →
        k ≤ bestStreakLoop prev best streak l := by
  induction l with
  | nil =>
    intro prev best streak _ hcover hback hlow k e hrun
    rw [bestStreakLoop]
    match k with
    | 0 => exact Nat.zero_le _
    | k + 1 =>
      have hlast : e + (k : ℤ) ∈ dates := hrun k (by omega)
      have hle : e + (k : ℤ) ≤ prev := by
        rcases hcover _ hlast with h | h
        · exact h
        · simp at h
      by_cases hend : e + ((k + 1 : ℕ) : ℤ) ≤ prev
      · exact hlow (k + 1) e hrun hend
      · have he : e + ((k + 1 : ℕ) : ℤ) = prev + 1 := by push_cast at hend ⊢; omega
        have h2 := hback (k + 1) (run_unflip hrun he)
        exact le_trans h2 (Nat.le_max_right _ _)
  | cons d rest ih =>
    intro prev best streak hpw hcover hback hlow k e hrun
    rw [bestStreakLoop]
    have hpd : prev < d := (List.pairwise_cons.mp hpw).1 d (List.mem_cons_self _ _)
    have hpw2 : List.Pairwise (· < ·) (d :: rest) := (List.pairwise_cons.mp hpw).2
    have hdrest : ∀ x ∈ rest, d < x := (List.pairwise_cons.mp hpw2).1
    have hcover2 : ∀ x ∈ dates, x ≤ d ∨ x ∈ rest := by
      intro x hx
      rcases hcover x hx with h | h
      · exact Or.inl (le_trans h (le_of_lt hpd))
      · rcases List.mem_cons.mp h with rfl | h2
        · exact Or.inl le_rfl
        · exact Or.inr h2
    by_cases hd : d - prev = 1
    · rw [if_pos hd]
      have hback2 : ∀ m : ℕ, (∀ j : ℕ, j < m → d - (j : ℤ) ∈ dates) → m ≤ streak + 1 := by
        intro m hm
        match m with
        | 0 => exact Nat.zero_le _
        | m + 1 =>
          have h2 : ∀ j : ℕ, j < m → prev - (j : ℤ) ∈ dates := by
            intro j hj
            have h3 := hm (j + 1) (by omega)
            have he : d - ((j : ℤ) + 1) = prev - (j : ℤ) := by omega
            push_cast at h3
            rw [he] at h3
            exact h3
          have := hback m h2
          omega
      have hlow2 : ∀ (k2 : ℕ) (e2 : ℤ), (∀ j : ℕ, j < k2 → e2 + (j : ℤ) ∈ dates) →
          e2 + (k2 : ℤ) ≤ d → k2 ≤ max best (streak + 1) := by
        intro k2 e2 hrun2 hle2
        match k2 with
        | 0 => exact Nat.zero_le _
        | k2 + 1 =>
          by_cases hend : e2 + ((k2 + 1 : ℕ) : ℤ) ≤ prev
          · have h2 := hlow (k2 + 1) e2 hrun2 hend
            exact le_trans h2 (max_le_max (le_refl best) (Nat.le_succ streak))
          · have he : e2 + ((k2 + 1 : ℕ) : ℤ) = prev + 1 := by
              push_cast at hend hle2 ⊢; omega
            have h2 := hback (k2 + 1) (run_unflip hrun2 he)
            exact le_trans h2 (le_trans (Nat.le_succ streak) (Nat.le_max_right _ _))
      exact ih d best (streak + 1) hpw2 hcover2 hback2 hlow2 k e hrun
    · rw [if_neg hd]
      have hgap : prev + 1 < d := by omega
      have hback2 : ∀ m : ℕ, (∀ j : ℕ, j < m → d - (j : ℤ) ∈ dates) → m ≤ 1 := by
        intro m hm
        by_contra hm2
        push_neg at hm2
        have h1 : d - 1 ∈ dates := by
          have := hm 1 (by omega); simpa using this
        rcases hcover _ h1 with h | h
        · omega
        · rcases List.mem_cons.mp h with heq | h2
          · omega
          · have := hdrest _ h2; omega
      have hlow2 : ∀ (k2 : ℕ) (e2 : ℤ), (∀ j : ℕ, j < k2 → e2 + (j : ℤ) ∈ dates) →
          e2 + (k2 : ℤ) ≤ d → k2 ≤ max (max best streak) 1 := by
        intro k2 e2 hrun2 hle2
        match k2 with
        | 0 => exact Nat.zero_le _
        | k2 + 1 =>
          have hlast : e2 + (k2 : ℤ) ∈ dates := hrun2 k2 (by omega)
          have hlastle : e2 + (k2 : ℤ) ≤ prev := by
            rcases hcover _ hlast with h | h
            · exact h
            · rcases List.mem_cons.mp h with heq | h2
              · push_cast at hle2; omega
              · have := hdrest _ h2; push_cast at hle2; omega
          by_cases hend : e2 + ((k2 + 1 : ℕ) : ℤ) ≤ prev
          · have h2 := hlow (k2 + 1) e2 hrun2 hend
            exact le_trans h2 (Nat.le_max_left _ _)
          · have he : e2 + ((k2 + 1 : ℕ) : ℤ) = prev + 1 := by
              push_cast at hend ⊢; omega
            have h2 := hback (k2 + 1) (run_unflip hrun2 he)
            exact le_trans h2 (le_trans (Nat.le_max_right best streak) (Nat.le_max_left _ _))
      exact ih d (max best streak) 1 hpw2 hcover2 hback2 hlow2 k e hrun

theorem sort_eq_nil_iff_empty (dates : Finset ℤ) :
    dates.sort (· ≤ ·) = [] ↔ dates = ∅ := by
  constructor
  · intro h
    have hlen := Finset.length_sort (α := ℤ) (· ≤ ·) (s := dates)
    rw [h] at hlen
    exact Finset.card_eq_zero.mp hlen.symm
  · intro h
    subst h
    exact Finset.sort_empty _

/-- Characterization of `best_streak`: it is the greatest `k` such that some
run of `k` consecutive calendar days is contained in the date set. -/
theorem best_streak_spec (dates : Finset ℤ) :
    IsGreatest {k : ℕ | ∃ d : ℤ, ∀ j : ℕ, j < k → d + (j : ℤ) ∈ dates}
      (best_streak dates) := by
  rcases h : dates.sort (· ≤ ·) with _ | ⟨d0, rest⟩
  · have hempty : dates = ∅ := (sort_eq_nil_iff_empty dates).mp h
    have hbs : best_streak dates = 0 := by unfold best_streak; rw [h]
    rw [hbs]
    constructor
    · exact ⟨0, fun j hj => absurd hj (Nat.not_lt_zero _)⟩
    · rintro k ⟨d, hd⟩
      match k with
      | 0 => exact le_refl 0
      | k + 1 =>
        have := hd 0 (by omega)
        rw [hempty] at this
        simp at this
  · have hbs : best_streak dates = bestStreakLoop d0 0 1 rest := by
      unfold best_streak; rw [h]
    have hmemiff : ∀ x : ℤ, x ∈ dates ↔ x ∈ d0 :: rest := by
      intro x
      rw [← Finset.mem_sort (α := ℤ) (· ≤ ·), h]
    have hpw : List.Pairwise (· < ·) (d0 :: rest) := by
      have hs := Finset.sort_sorted_lt dates
      rw [h] at hs
      exact hs
    have hd0rest : ∀ x ∈ rest, d0 < x := (List.pairwise_cons.mp hpw).1
    rw [hbs]
    constructor
    · apply bestStreakLoop_exists_run dates rest d0 0 1
      · intro x hx
        exact (hmemiff x).mpr (List.mem_cons_of_mem _ hx)
      · intro j hj
        have hj0 : j = 0 := by omega
        subst hj0
        simpa using (hmemiff d0).mpr (List.mem_cons_self _ _)
      · exact ⟨0, fun j hj => absurd hj (Nat.not_lt_zero _)⟩
    · rintro k ⟨d, hd⟩
      apply bestStreakLoop_ub dates rest d0 0 1 hpw ?_ ?_ ?_ k d hd
      · intro x hx
        rcases List.mem_cons.mp ((hmemiff x).mp hx) with rfl | h2
        · exact Or.inl le_rfl
        · exact Or.inr h2
      · intro m hm
        by_contra hm2
        push_neg at hm2
        have h1 : d0 - 1 ∈ dates := by
          have := hm 1 (by omega); simpa using this
        rcases List.mem_cons.mp ((hmemiff _).mp h1) with heq | h2
        · omega
        · have := hd0rest _ h2; omega
      · intro k2 e2 hrun2 hle2
        match k2 with
        | 0 => exact Nat.zero_le _
        | k2 + 1 =>
          have hfirst : e2 ∈ dates := by
            have := hrun2 0 (by omega); simpa using this
          rcases List.mem_cons.mp ((hmemiff _).mp hfirst) with heq | h2
          · push_cast at hle2; omega
          · have := hd0rest _ h2; push_cast at hle2; omega

/-- The best streak is zero exactly on the empty date set. -/
theorem best_streak_eq_zero_iff (dates : Finset ℤ) :
    best_streak dates = 0 ↔ dates = ∅ := by
  constructor
  · intro h0
    rcases h : dates.sort (· ≤ ·) with _ | ⟨d0, rest⟩
    · exact (sort_eq_nil_iff_empty dates).mp h
    · have hbs : best_streak dates = bestStreakLoop d0 0 1 rest := by
        unfold best_streak; rw [h]
      have := le_bestStreakLoop_streak rest d0 0 1
      omega
  · intro h
    subst h
    unfold best_streak
    rw [Finset.sort_empty]

/-- C2: for every finite set of distinct dates and a fixed today, the
computed current streak is the largest k such that the k consecutive days
today, today-1, …, today-(k-1) all lie in the set; in particular it is 0
when today is absent, it is 3 for the set containing today, today-1 and
today-2, and it is 0 for the set containing only today-1. -/
theorem claim_C2_current_streak :
    (∀ (dates : Finset ℤ) (today : ℤ),
      IsGreatest {k : ℕ | ∀ j : ℕ, j < k → today - (j : ℤ) ∈ dates}
        (current_streak dates today)) ∧
    (∀ (dates : Finset ℤ) (today : ℤ), today ∉ dates → current_streak dates today = 0) ∧
    (∀ today : ℤ, current_streak {today, today - 1, today - 2} today = 3) ∧
    (∀ today : ℤ, current_streak {today - 1} today = 0) := by
  have hmain : ∀ (dates : Finset ℤ) (today : ℤ),
      IsGreatest {k : ℕ | ∀ j : ℕ, j < k → today - (j : ℤ) ∈ dates}
        (current_streak dates today) :=
    fun dates today =>
      ⟨current_streak_mem dates today, fun k hk => current_streak_ub dates today k hk⟩
  have hzero : ∀ (dates : Finset ℤ) (today : ℤ), today ∉ dates →
      current_streak dates today = 0 := by
    intro dates today h
    by_contra h2
    have h3 := current_streak_mem dates today 0 (by omega)
    simp only [Nat.cast_zero, sub_zero] at h3
    exact h h3
  refine ⟨hmain, hzero, ?_, ?_⟩
  · intro today
    have hge : 3 ≤ current_streak {today, today - 1, today - 2} today := by
      apply current_streak_ub
      intro j hj
      have hj3 : j = 0 ∨ j = 1 ∨ j = 2 := by omega
      rcases hj3 with rfl | rfl | rfl <;> push_cast <;> simp
    have hle : current_streak {today, today - 1, today - 2} today ≤ 3 := by
      by_contra hc
      push_neg at hc
      have h3 := current_streak_mem {today, today - 1, today - 2} today 3 (by omega)
      push_cast at h3
      simp only [Finset.mem_insert, Finset.mem_singleton] at h3
      omega
    omega
  · intro today
    apply hzero
    simp only [Finset.mem_singleton]
    omega

theorem claim_C2_current_streak_witness : current_streak {0, -1, -2} 0 = 3 := by
  have h := claim_C2_current_streak.2.2.1 0
  norm_num at h
  exact h

/-- C3: for every finite set of distinct dates, the computed best streak is
the maximum length of a run of consecutive calendar days contained in the
set; it is 0 for the empty set, and it is 3 for every set of the form
containing d, d+1, d+2 and d+5. -/
theorem claim_C3_best_streak :
    (∀ dates : Finset ℤ,
      IsGreatest {k : ℕ | ∃ d : ℤ, ∀ j : ℕ, j < k → d + (j : ℤ) ∈ dates}
        (best_streak dates)) ∧
    best_streak (∅ : Finset ℤ) = 0 ∧
    (∀ d : ℤ, best_streak {d, d + 1, d + 2, d + 5} = 3) := by
  refine ⟨best_streak_spec, (best_streak_eq_zero_iff ∅).mpr rfl, ?_⟩
  intro d
  have hspec := best_streak_spec {d, d + 1, d + 2, d + 5}
  have hge : 3 ≤ best_streak {d, d + 1, d + 2, d + 5} := by
    apply hspec.2
    refine ⟨d, ?_⟩
    intro j hj
    have hj3 : j = 0 ∨ j = 1 ∨ j = 2 := by omega
    rcases hj3 with rfl | rfl | rfl <;> push_cast <;> simp
  have hle : best_streak {d, d + 1, d + 2, d + 5} ≤ 3 := by
    by_contra hc
    push_neg at hc
    obtain ⟨e, he⟩ := hspec.1
    have h0 := he 0 (by omega)
    have h1 := he 1 (by omega)
    have h2 := he 2 (by omega)
    have h3 := he 3 (by omega)
    push_cast at h0 h1 h2 h3
    simp only [Finset.mem_insert, Finset.mem_singleton] at h0 h1 h2 h3
    omega
  omega

theorem claim_C3_best_streak_witness : best_streak {0, 1, 2, 5} = 3 := by
  have h := claim_C3_best_streak.2.2 0
  norm_num at h
  exact h

/-- C10: the current streak never exceeds the best streak, and the best
streak is 0 exactly on the empty date set (so it is at least 1 on every
non-empty set). -/
theorem claim_C10_streak_relation :
    ∀ (dates : Finset ℤ) (today : ℤ),
      current_streak dates today ≤ best_streak dates ∧
      (best_streak dates = 0 ↔ dates = ∅) := by
  intro dates today
  refine ⟨?_, best_streak_eq_zero_iff dates⟩
  rcases Nat.eq_zero_or_pos (current_streak dates today) with h0 | hpos
  · omega
  · apply (best_streak_spec dates).2
    exact ⟨today - (current_streak dates today : ℤ) + 1,
      run_flip (current_streak_mem dates today)⟩

theorem claim_C10_streak_relation_witness :
    current_streak {0} 0 ≤ best_streak {0} ∧
      (best_streak ({0} : Finset ℤ) = 0 ↔ ({0} : Finset ℤ) = ∅) :=
  claim_C10_streak_relation {0} 0

/-! ## Rounding and rate lemmas -/

theorem pyRound_nearest (q : ℚ) : |(pyRound q : ℚ) - q| ≤ 1 / 2 := by
  unfold pyRound
  have h1 : (⌊q⌋ : ℚ) ≤ q := Int.floor_le q
  have h2 : q < ⌊q⌋ + 1 := Int.lt_floor_add_one q
  by_cases hc1 : q - ⌊q⌋ < 1 / 2
  · rw [if_pos hc1, abs_le]
    constructor <;> linarith
  · rw [if_neg hc1]
    push_neg at hc1
    by_cases hc2 : 1 / 2 < q - ⌊q⌋
    · rw [if_pos hc2]
      push_cast
      rw [abs_le]
      constructor <;> linarith
    · rw [if_neg hc2]
      push_neg at hc2
      by_cases hc3 : 2 ∣ ⌊q⌋
      · rw [if_pos hc3, abs_le]
        constructor <;> linarith
      · rw [if_neg hc3]
        push_cast
        rw [abs_le]
        constructor <;> linarith

/-- C7: in every weekly bucket of the habit statistics the possible count is
habit_count × days_in_bucket, the rate for a non-empty denominator is the
ratio times 100 rounded to a nearest integer, the rate for possible = 0 is 0
with no division performed, and the bucket computation factors through these
two total functions. -/
theorem claim_C7_weekly_rate :
    (∀ total_habits days_in_week : ℕ,
      weekly_possible total_habits days_in_week = total_habits * days_in_week) ∧
    (∀ c p : ℕ, 0 < p →
      weekly_rate c p = pyRound ((c : ℚ) / (p : ℚ) * 100) ∧
      |(weekly_rate c p : ℚ) - (c : ℚ) / (p : ℚ) * 100| ≤ 1 / 2) ∧
    (∀ c : ℕ, weekly_rate c 0 = 0) ∧
    (∀ h d c : ℕ, weekly_bucket_rate h d c = weekly_rate c (h * d)) := by
  refine ⟨fun _ _ => rfl, ?_, fun c => rfl, fun _ _ _ => rfl⟩
  intro c p hp
  constructor
  · unfold weekly_rate
    rw [if_pos hp]
  · unfold weekly_rate
    rw [if_pos hp]
    exact pyRound_nearest _

theorem claim_C7_weekly_rate_witness :
    (0 : ℕ) < 2 ∧
      (weekly_rate 1 2 = pyRound ((1 : ℚ) / (2 : ℚ) * 100) ∧
        |(weekly_rate 1 2 : ℚ) - (1 : ℚ) / (2 : ℚ) * 100| ≤ 1 / 2) :=
  ⟨by decide, claim_C7_weekly_rate.2.1 1 2 (by decide)⟩

/-- C4 (counterexample): the model property `Goal.progress_percentage`
returns 0 — not 100 — when target_value = 0 and current_value = 0, and it
returns -50 (outside [0, 100]) for current_value = -50, target_value = 100. -/
theorem claim_C4_counterexample :
    progress_percentage 0 0 = 0 ∧ (0 : ℚ) ≠ 100 ∧
    progress_percentage (-50) 100 = -50 ∧ ¬(0 ≤ progress_percentage (-50) 100) := by
  have h1 : progress_percentage 0 0 = 0 := by
    unfold progress_percentage
    norm_num
  have h2 : progress_percentage (-50) 100 = -50 := by
    unfold progress_percentage
    rw [if_neg (by norm_num : (100 : ℚ) ≠ 0)]
    have h3 : (-50 : ℚ) / 100 * 100 = -50 := by norm_num
    rw [h3]
    exact min_eq_right (by norm_num)
  exact ⟨h1, by norm_num, h2, by rw [h2]; norm_num⟩

/-- C4 (amended): `Goal.progress_percentage` returns 0 when target_value = 0
and min(100, current_value / target_value × 100) otherwise, so it never
exceeds 100; it lies in [0, 100] when current_value ≥ 0 and target_value > 0,
but it can be negative when current_value < 0 (see the counterexample) or
when target_value < 0 (last conjunct: 5 against target -10 gives -50); the
stats endpoint, by contrast, reports 100 when target_value = 0 and
current_value ≥ 0, and 0 otherwise. -/
theorem claim_C4_progress_percentage :
    (∀ cv tv : ℚ, tv = 0 → progress_percentage cv tv = 0) ∧
    (∀ cv tv : ℚ, tv ≠ 0 → progress_percentage cv tv = min 100 (cv / tv * 100)) ∧
    (∀ cv tv : ℚ, progress_percentage cv tv ≤ 100) ∧
    (∀ cv tv : ℚ, 0 ≤ cv → 0 < tv →
      0 ≤ progress_percentage cv tv ∧ progress_percentage cv tv ≤ 100) ∧
    (∀ cv : ℚ, stats_goal_percentage cv 0 = if 0 ≤ cv then 100 else 0) ∧
    progress_percentage 5 (-10) = -50 := by
  refine ⟨?_, ?_, ?_, ?_, ?_, ?_⟩
  · intro cv tv h
    unfold progress_percentage
    rw [if_pos h]
  · intro cv tv h
    unfold progress_percentage
    rw [if_neg h]
  · intro cv tv
    unfold progress_percentage
    split
    · norm_num
    · exact min_le_left _ _
  · intro cv tv hcv htv
    unfold progress_percentage
    rw [if_neg htv.ne']
    refine ⟨le_min (by norm_num) ?_, min_le_left _ _⟩
    positivity
  · intro cv
    unfold stats_goal_percentage
    rw [if_neg (lt_irrefl (0 : ℚ))]
  · unfold progress_percentage
    rw [if_neg (by norm_num : (-10 : ℚ) ≠ 0)]
    have h : (5 : ℚ) / (-10) * 100 = -50 := by norm_num
    rw [h]
    exact min_eq_right (by norm_num)

theorem claim_C4_progress_percentage_witness :
    (10 : ℚ) ≠ 0 ∧ progress_percentage 5 10 = min 100 ((5 : ℚ) / 10 * 100) :=
  ⟨by norm_num, claim_C4_progress_percentage.2.1 5 10 (by norm_num)⟩

/-- C8: every create operation stamps the owner field from the authenticated
caller, and a client-supplied value for the owner field never influences the
stored record, for Goals, Habits and JournalEntries alike. -/
theorem claim_C8_owner_stamping :
    (∀ (u : ℕ) (p : GoalPayload), (goalCreateRecord u p).user = u) ∧
    (∀ (u : ℕ) (p : GoalPayload) (v v2 : Option ℕ),
      goalCreateRecord u { p with user := v } = goalCreateRecord u { p with user := v2 }) ∧
    (∀ (u : ℕ) (p : HabitPayload), (habitCreateRecord u p).user = u) ∧
    (∀ (u : ℕ) (p : HabitPayload) (v v2 : Option ℕ),
      habitCreateRecord u { p with user := v } = habitCreateRecord u { p with user := v2 }) ∧
    (∀ (u : ℕ) (p : JournalPayload), (journalCreateRecord u p).user = u) ∧
    (∀ (u : ℕ) (p : JournalPayload) (v v2 : Option ℕ),
      journalCreateRecord u { p with user := v } = journalCreateRecord u { p with user := v2 }) :=
  ⟨fun _ _ => rfl, fun _ _ _ _ => rfl, fun _ _ => rfl, fun _ _ _ _ => rfl,
    fun _ _ => rfl, fun _ _ _ _ => rfl⟩

/-- C9 (counterexample): the serializer validation accepts the frequency
value "hourly", which is none of daily, weekly, monthly — the model field
has no choices constraint. -/
theorem claim_C9_counterexample :
    validHabitPayload "Exercise" "health" "hourly" = true ∧
    "hourly" ∉ ["daily", "weekly", "monthly"] := by
  constructor
  · decide
  · decide

/-- C9 (amended): a habit accepted by the create/update validation has a
non-empty frequency of at most 10 characters, and conversely every such
frequency string is accepted (given otherwise valid fields) — the three
canonical values are accepted but not enforced. -/
theorem claim_C9_frequency :
    (∀ name category frequency : String,
      validHabitPayload name category frequency = true →
      frequency ≠ "" ∧ frequency.length ≤ 10) ∧
    (∀ f : String, f ≠ "" → f.length ≤ 10 →
      validHabitPayload "Exercise" "health" f = true) := by
  constructor
  · intro n c f h
    simp only [validHabitPayload, Bool.and_eq_true, bne_iff_ne, ne_eq,
      decide_eq_true_eq] at h
    exact ⟨h.1.2, h.2⟩
  · intro f hne hlen
    simp only [validHabitPayload, Bool.and_eq_true, bne_iff_ne, ne_eq,
      decide_eq_true_eq]
    refine ⟨⟨?_, ?_⟩, ?_⟩
    · decide
    · exact hne
    · exact hlen

theorem claim_C9_frequency_witness :
    validHabitPayload "Walk" "health" "daily" = true ∧
      ("daily" ≠ "" ∧ ("daily" : String).length ≤ 10) :=
  ⟨by decide, claim_C9_frequency.1 "Walk" "health" "daily" (by decide)⟩

/-- C5 (counterexample): a delete targeting another user's progress entry
(goal 1 and its progress entry belong to user 1, the caller is user 2) fails
with NotFound — produced by the scoped queryset — not with the Forbidden
error the claim requires for every write operation. -/
theorem claim_C5_counterexample :
    progressDelete 2 1 ⟨[⟨1, 1, 2⟩], [⟨1, 1, 2⟩]⟩ = .error .notFound ∧
    ApiError.notFound ≠ ApiError.permissionDenied := by
  constructor
  · rfl
  · decide

/-- C5 (amended): a GoalProgress create that references a goal owned by a
different user fails with PermissionDenied and leaves the state unchanged; a
HabitLog create that references a foreign habit fails without mutating state
— with PermissionDenied when no log for that (habit, date) pair exists, and
with a validation error when a duplicate exists, because the uniqueness
validator runs before the ownership check; update and delete operations on
both endpoint families whose target id lies outside the caller's scoped
queryset fail with NotFound (not Forbidden) and leave the state unchanged;
and an update of an in-scope progress entry succeeds even when it re-targets
the entry to a goal owned by a different user (no ownership check exists on
the new parent). -/
theorem claim_C5_ownership_errors :
    (∀ (st : GoalsState) (caller gid : ℕ) (a : ℚ) (g : GoalRec),
      lookupGoal st gid = some g → g.user ≠ caller →
      progressCreate caller gid a st = .error .permissionDenied ∧
        applyOp (.create caller gid a) st = st) ∧
    (∀ (st : GoalsState) (caller pid gid : ℕ) (a : ℚ),
      scopedProgress st caller pid = none →
      progressUpdate caller pid gid a st = .error .notFound ∧
        applyOp (.update caller pid gid a) st = st) ∧
    (∀ (st : GoalsState) (caller pid : ℕ),
      scopedProgress st caller pid = none →
      progressDelete caller pid st = .error .notFound ∧
        applyOp (.delete caller pid) st = st) ∧
    (∀ (st : HabitsState) (caller hid : ℕ) (d : ℤ) (h : HabitRec),
      lookupHabit st hid = some h → h.user ≠ caller →
      logCreate caller hid d st
          = .error (if hasLogFor st.logs hid d then .validation else .permissionDenied) ∧
        applyHOp (.create caller hid d) st = st) ∧
    (∀ (st : HabitsState) (caller lid hid : ℕ) (d : ℤ),
      scopedLog st caller lid = none →
      logUpdate caller lid hid d st = .error .notFound ∧
        applyHOp (.update caller lid hid d) st = st) ∧
    (∀ (st : HabitsState) (caller lid : ℕ),
      scopedLog st caller lid = none →
      logDelete caller lid st = .error .notFound ∧
        applyHOp (.delete caller lid) st = st) ∧
    (∀ (st : GoalsState) (caller pid gid : ℕ) (a : ℚ) (p : ProgressRec) (g : GoalRec),
      scopedProgress st caller pid = some p → lookupGoal st gid = some g →
      ∃ st2, progressUpdate caller pid gid a st = .ok st2) := by
  refine ⟨?_, ?_, ?_, ?_, ?_, ?_, ?_⟩
  · intro st caller gid a g h1 h2
    have hc : progressCreate caller gid a st = .error .permissionDenied := by
      simp only [progressCreate, h1]
      rw [if_pos h2]
    exact ⟨hc, by simp only [applyOp, hc]⟩
  · intro st caller pid gid a h1
    have hc : progressUpdate caller pid gid a st = .error .notFound := by
      simp only [progressUpdate, h1]
    exact ⟨hc, by simp only [applyOp, hc]⟩
  · intro st caller pid h1
    have hc : progressDelete caller pid st = .error .notFound := by
      simp only [progressDelete, h1]
    exact ⟨hc, by simp only [applyOp, hc]⟩
  · intro st caller hid d h h1 h2
    by_cases hdup : hasLogFor st.logs hid d = true
    · have hc : logCreate caller hid d st = .error .validation := by
        simp only [logCreate, h1, hdup, if_true]
      refine ⟨?_, by simp only [applyHOp, hc]⟩
      rw [if_pos hdup]
      exact hc
    · have hb : hasLogFor st.logs hid d = false := by simpa using hdup
      have hc : logCreate caller hid d st = .error .permissionDenied := by
        simp only [logCreate, h1, hb]
        rw [if_neg (by simp : ¬(false = true)), if_pos h2]
      refine ⟨?_, by simp only [applyHOp, hc]⟩
      rw [if_neg hdup]
      exact hc
  · intro st caller lid hid d h1
    have hc : logUpdate caller lid hid d st = .error .notFound := by
      simp only [logUpdate, h1]
    exact ⟨hc, by simp only [applyHOp, hc]⟩
  · intro st caller lid h1
    have hc : logDelete caller lid st = .error .notFound := by
      simp only [logDelete, h1]
    exact ⟨hc, by simp only [applyHOp, hc]⟩
  · intro st caller pid gid a p g h1 h2
    refine ⟨{ st with
        progresses := st.progresses.map (fun q => if q.id == pid then ⟨q.id, gid, a⟩ else q),
        goals := addToGoal st.goals gid (a - p.amount) }, ?_⟩
    simp only [progressUpdate, h1, h2]

theorem claim_C5_ownership_errors_witness :
    scopedProgress ⟨[⟨1, 1, 2⟩], [⟨1, 1, 2⟩]⟩ 2 1 = none ∧
      (progressDelete 2 1 ⟨[⟨1, 1, 2⟩], [⟨1, 1, 2⟩]⟩ = .error .notFound ∧
        applyOp (.delete 2 1) ⟨[⟨1, 1, 2⟩], [⟨1, 1, 2⟩]⟩ = ⟨[⟨1, 1, 2⟩], [⟨1, 1, 2⟩]⟩) :=
  ⟨by decide, claim_C5_ownership_errors.2.2.1 ⟨[⟨1, 1, 2⟩], [⟨1, 1, 2⟩]⟩ 2 1 (by decide)⟩

/-! ## HabitLog uniqueness lemmas -/

theorem le_foldr_max_logId (l : List LogRec) :
    ∀ x ∈ l, x.id ≤ l.foldr (fun a m => max a.id m) 0 := by
  induction l with
  | nil => intro x hx; simp at hx
  | cons a rest ih =>
    intro x hx
    rcases List.mem_cons.mp hx with rfl | hx2
    · exact Nat.le_max_left _ _
    · exact le_trans (ih x hx2) (Nat.le_max_right _ _)

theorem le_foldr_max_progressId (l : List ProgressRec) :
    ∀ x ∈ l, x.id ≤ l.foldr (fun a m => max a.id m) 0 := by
  induction l with
  | nil => intro x hx; simp at hx
  | cons a rest ih =>
    intro x hx
    rcases List.mem_cons.mp hx with rfl | hx2
    · exact Nat.le_max_left _ _
    · exact le_trans (ih x hx2) (Nat.le_max_right _ _)

theorem logCreate_ok {caller hid : ℕ} {d : ℤ} {st st2 : HabitsState}
    (h : logCreate caller hid d st = .ok st2) :
    st2.logs = st.logs ++ [⟨nextLogId st, hid, d⟩] ∧ hasLogFor st.logs hid d = false := by
  unfold logCreate at h
  cases hl : lookupHabit st hid with
  | none => simp only [hl] at h; simp at h
  | some hrec =>
    simp only [hl] at h
    by_cases hdup : hasLogFor st.logs hid d = true
    · rw [if_pos hdup] at h; simp at h
    · rw [if_neg hdup] at h
      by_cases huser : hrec.user ≠ caller
      · rw [if_pos huser] at h; simp at h
      · rw [if_neg huser] at h
        injection h with h2
        subst h2
        exact ⟨rfl, by simpa using hdup⟩

theorem logUpdate_ok {caller lid hid : ℕ} {d : ℤ} {st st2 : HabitsState}
    (h : logUpdate caller lid hid d st = .ok st2) :
    st2.logs = st.logs.map (fun q => if q.id == lid then ⟨q.id, hid, d⟩ else q) ∧
      hasOtherLogFor st.logs lid hid d = false := by
  unfold logUpdate at h
  cases hs : scopedLog st caller lid with
  | none => simp only [hs] at h; simp at h
  | some l0 =>
    simp only [hs] at h
    cases hl : lookupHabit st hid with
    | none => simp only [hl] at h; simp at h
    | some hrec =>
      simp only [hl] at h
      by_cases hother : hasOtherLogFor st.logs lid hid d = true
      · rw [if_pos hother] at h; simp at h
      · rw [if_neg hother] at h
        injection h with h2
        subst h2
        exact ⟨rfl, by simpa using hother⟩

theorem logDelete_ok {caller lid : ℕ} {st st2 : HabitsState}
    (h : logDelete caller lid st = .ok st2) :
    st2.logs = st.logs.filter (fun q => q.id != lid) := by
  unfold logDelete at h
  cases hs : scopedLog st caller lid with
  | none => simp only [hs] at h; simp at h
  | some l0 =>
    simp only [hs] at h
    injection h with h2
    subst h2
    rfl

theorem applyHOp_logs_invariant (op : HabitLogOp) (st : HabitsState)
    (hwf : st.logs.Pairwise (fun a b => a.id ≠ b.id))
    (huniq : st.logs.Pairwise (fun a b => ¬(a.habit = b.habit ∧ a.date = b.date))) :
    (applyHOp op st).logs.Pairwise (fun a b => a.id ≠ b.id) ∧
      (applyHOp op st).logs.Pairwise
        (fun a b => ¬(a.habit = b.habit ∧ a.date = b.date)) := by
  rcases op with ⟨caller, hid, d⟩ | ⟨caller, lid, hid, d⟩ | ⟨caller, lid⟩
  · cases hres : logCreate caller hid d st with
    | error err => simp only [applyHOp, hres]; exact ⟨hwf, huniq⟩
    | ok st2 =>
      simp only [applyHOp, hres]
      obtain ⟨hlogs, hdup⟩ := logCreate_ok hres
      rw [hlogs]
      have hfresh : ∀ x ∈ st.logs, x.id ≠ nextLogId st := by
        intro x hx
        have h2 := le_foldr_max_logId st.logs x hx
        unfold nextLogId
        omega
      have hnodup : ∀ l ∈ st.logs, ¬(l.habit = hid ∧ l.date = d) := by
        intro l hl hcon
        have h2 : hasLogFor st.logs hid d = true := by
          simp only [hasLogFor, List.any_eq_true]
          exact ⟨l, hl, by simp [hcon.1, hcon.2]⟩
        rw [h2] at hdup
        cases hdup
      constructor
      · rw [List.pairwise_append]
        refine ⟨hwf, List.pairwise_singleton _ _, ?_⟩
        intro a ha b hb
        rw [List.mem_singleton] at hb
        subst hb
        exact hfresh a ha
      · rw [List.pairwise_append]
        refine ⟨huniq, List.pairwise_singleton _ _, ?_⟩
        intro a ha b hb
        rw [List.mem_singleton] at hb
        subst hb
        exact hnodup a ha
  · cases hres : logUpdate caller lid hid d st with
    | error err => simp only [applyHOp, hres]; exact ⟨hwf, huniq⟩
    | ok st2 =>
      simp only [applyHOp, hres]
      obtain ⟨hlogs, hother⟩ := logUpdate_ok hres
      rw [hlogs]
      have hid_eq : ∀ q : LogRec,
          (if q.id == lid then (⟨q.id, hid, d⟩ : LogRec) else q).id = q.id := by
        intro q; split <;> rfl
      have hnoother : ∀ q ∈ st.logs, q.id ≠ lid → ¬(q.habit = hid ∧ q.date = d) := by
        intro q hq hqid hcon
        have h2 : hasOtherLogFor st.logs lid hid d = true := by
          simp only [hasOtherLogFor, List.any_eq_true]
          exact ⟨q, hq, by simp [hqid, hcon.1, hcon.2]⟩
        rw [h2] at hother
        cases hother
      constructor
      · rw [List.pairwise_map]
        refine hwf.imp ?_
        intro a b hab
        rw [hid_eq, hid_eq]
        exact hab
      · rw [List.pairwise_map]
        refine (huniq.and hwf).imp_of_mem ?_
        intro a b ha hb hR
        obtain ⟨hRuniq, hRid⟩ := hR
        by_cases haid : a.id = lid
        · have hbid : b.id ≠ lid := by omega
          rw [if_pos (by simp [haid] : (a.id == lid) = true),
            if_neg (by simp [hbid] : ¬(b.id == lid) = true)]
          intro hcon
          exact hnoother b hb hbid ⟨hcon.1.symm, hcon.2.symm⟩
        · by_cases hbid : b.id = lid
          · rw [if_neg (by simp [haid] : ¬(a.id == lid) = true),
              if_pos (by simp [hbid] : (b.id == lid) = true)]
            intro hcon
            exact hnoother a ha haid ⟨hcon.1, hcon.2⟩
          · rw [if_neg (by simp [haid] : ¬(a.id == lid) = true),
              if_neg (by simp [hbid] : ¬(b.id == lid) = true)]
            exact hRuniq
  · cases hres : logDelete caller lid st with
    | error err => simp only [applyHOp, hres]; exact ⟨hwf, huniq⟩
    | ok st2 =>
      simp only [applyHOp, hres]
      rw [logDelete_ok hres]
      exact ⟨hwf.filter _, huniq.filter _⟩

theorem runHOps_invariant (ops : List HabitLogOp) :
    ∀ st : HabitsState,
      st.logs.Pairwise (fun a b => a.id ≠ b.id) →
      st.logs.Pairwise (fun a b => ¬(a.habit = b.habit ∧ a.date = b.date)) →
      (runHOps ops st).logs.Pairwise (fun a b => a.id ≠ b.id) ∧
        (runHOps ops st).logs.Pairwise
          (fun a b => ¬(a.habit = b.habit ∧ a.date = b.date)) := by
  induction ops with
  | nil => intro st h1 h2; exact ⟨h1, h2⟩
  | cons op rest ih =>
    intro st h1 h2
    have hstep := applyHOp_logs_invariant op st h1 h2
    exact ih (applyHOp op st) hstep.1 hstep.2

/-- C6: starting from a well-formed state satisfying the (habit, date)
uniqueness invariant, any sequence of HabitLog requests preserves the
invariant; moreover a create naming an already-logged (habit, date) pair
fails with a validation error and leaves the state unchanged. -/
theorem claim_C6_habitlog_unique :
    (∀ (ops : List HabitLogOp) (st : HabitsState),
      checkHWF st = true → checkLogUnique st = true →
      checkLogUnique (runHOps ops st) = true) ∧
    (∀ (st : HabitsState) (caller hid : ℕ) (d : ℤ),
      hasLogFor st.logs hid d = true →
      logCreate caller hid d st = .error .validation ∧
        applyHOp (.create caller hid d) st = st) := by
  constructor
  · intro ops st h1 h2
    simp only [checkHWF, decide_eq_true_eq] at h1
    simp only [checkLogUnique, decide_eq_true_eq] at h2 ⊢
    exact (runHOps_invariant ops st h1 h2).2
  · intro st caller hid d hdup
    have hc : logCreate caller hid d st = .error .validation := by
      unfold logCreate
      cases hl : lookupHabit st hid with
      | none => simp only
      | some hrec => simp only [hdup, if_true]
    exact ⟨hc, by simp only [applyHOp, hc]⟩

theorem claim_C6_habitlog_unique_witness :
    hasLogFor (⟨[⟨1, 1⟩], [⟨1, 1, 0⟩]⟩ : HabitsState).logs 1 0 = true ∧
      (logCreate 1 1 0 ⟨[⟨1, 1⟩], [⟨1, 1, 0⟩]⟩ = .error .validation ∧
        applyHOp (.create 1 1 0) ⟨[⟨1, 1⟩], [⟨1, 1, 0⟩]⟩ = ⟨[⟨1, 1⟩], [⟨1, 1, 0⟩]⟩) :=
  ⟨by decide, claim_C6_habitlog_unique.2 ⟨[⟨1, 1⟩], [⟨1, 1, 0⟩]⟩ 1 1 0 (by decide)⟩

/-! ## Progress-sync lemmas (C1) -/

theorem sumAmounts_nil (gid : ℕ) : sumAmounts [] gid = 0 := rfl

theorem sumAmounts_cons (q : ProgressRec) (ps : List ProgressRec) (gid : ℕ) :
    sumAmounts (q :: ps) gid
      = (if q.goal = gid then q.amount else 0) + sumAmounts ps gid := by
  by_cases h : q.goal = gid
  · simp [sumAmounts, List.filter_cons, h]
  · simp [sumAmounts, List.filter_cons, h]

theorem sumAmounts_append (ps : List ProgressRec) (p : ProgressRec) (gid : ℕ) :
    sumAmounts (ps ++ [p]) gid
      = sumAmounts ps gid + (if p.goal = gid then p.amount else 0) := by
  induction ps with
  | nil =>
    rw [List.nil_append, sumAmounts_cons, sumAmounts_nil]
    ring
  | cons q rest ih =>
    rw [List.cons_append, sumAmounts_cons, ih, sumAmounts_cons]
    ring

theorem progress_map_id (f : ProgressRec → ProgressRec) :
    ∀ l : List ProgressRec, (∀ x ∈ l, f x = x) → l.map f = l := by
  intro l
  induction l with
  | nil => intro _; rfl
  | cons q rest ih =>
    intro h
    rw [List.map_cons, h q (List.mem_cons_self _ _),
      ih (fun x hx => h x (List.mem_cons_of_mem _ hx))]

theorem sumAmounts_erase (p : ProgressRec) (gid : ℕ) :
    ∀ ps : List ProgressRec, ps.Pairwise (fun x y => x.id ≠ y.id) → p ∈ ps →
      sumAmounts (ps.filter (fun q => q.id != p.id)) gid
        = sumAmounts ps gid - (if p.goal = gid then p.amount else 0) := by
  intro ps
  induction ps with
  | nil => intro _ hmem; simp at hmem
  | cons q rest ih =>
    intro hnd hmem
    have hq := (List.pairwise_cons.mp hnd).1
    have hnd2 := (List.pairwise_cons.mp hnd).2
    rcases List.mem_cons.mp hmem with rfl | hmem2
    · rw [List.filter_cons]
      have hcond : (p.id != p.id) = false := by simp
      rw [hcond]
      simp only [Bool.false_eq_true, if_false]
      have hrest : rest.filter (fun r => r.id != p.id) = rest := by
        rw [List.filter_eq_self]
        intro r hr
        simp only [bne_iff_ne, ne_eq]
        exact Ne.symm (hq r hr)
      rw [hrest, sumAmounts_cons]
      ring
    · rw [List.filter_cons]
      have hcond : (q.id != p.id) = true := by
        simp only [bne_iff_ne, ne_eq]
        exact hq p hmem2
      rw [hcond]
      simp only [if_true]
      rw [sumAmounts_cons, sumAmounts_cons, ih hnd2 hmem2]
      ring

theorem sumAmounts_update (p : ProgressRec) (gid2 : ℕ) (a : ℚ) (G : ℕ) :
    ∀ ps : List ProgressRec, ps.Pairwise (fun x y => x.id ≠ y.id) → p ∈ ps →
      sumAmounts (ps.map (fun q => if q.id == p.id then ⟨q.id, gid2, a⟩ else q)) G
        = sumAmounts ps G - (if p.goal = G then p.amount else 0)
          + (if gid2 = G then a else 0) := by
  intro ps
  induction ps with
  | nil => intro _ hmem; simp at hmem
  | cons q rest ih =>
    intro hnd hmem
    have hq := (List.pairwise_cons.mp hnd).1
    have hnd2 := (List.pairwise_cons.mp hnd).2
    rcases List.mem_cons.mp hmem with rfl | hmem2
    · rw [List.map_cons]
      have hcond : (p.id == p.id) = true := by simp
      rw [hcond]
      simp only [if_true]
      have hrest : rest.map (fun r => if r.id == p.id then (⟨r.id, gid2, a⟩ : ProgressRec) else r)
          = rest := by
        apply progress_map_id
        intro r hr
        have hne : (r.id == p.id) = false := by
          simp only [beq_eq_false_iff_ne, ne_eq]
          exact Ne.symm (hq r hr)
        rw [hne]
        simp
      rw [hrest, sumAmounts_cons, sumAmounts_cons]
      ring
    · rw [List.map_cons]
      have hqid : q.id ≠ p.id := hq p hmem2
      have hcond : (q.id == p.id) = false := by
        simp only [beq_eq_false_iff_ne, ne_eq]
        exact hqid
      rw [hcond]
      simp only [Bool.false_eq_true, if_false]
      rw [sumAmounts_cons, sumAmounts_cons, ih hnd2 hmem2]
      ring

theorem addToGoal_mem {goals : List GoalRec} {gid : ℕ} {delta : ℚ} :
    ∀ g2 ∈ addToGoal goals gid delta, ∃ g0 ∈ goals,
      g2.id = g0.id ∧
        g2.current_value = g0.current_value + (if g0.id = gid then delta else 0) := by
  intro g2 hg2
  unfold addToGoal at hg2
  rcases List.mem_map.mp hg2 with ⟨g0, hg0, heq⟩
  subst heq
  refine ⟨g0, hg0, ?_⟩
  by_cases h : g0.id = gid
  · simp [h]
  · simp [h]

theorem scopedProgress_fact {st : GoalsState} {caller pid : ℕ} {p : ProgressRec}
    (h : scopedProgress st caller pid = some p) :
    p ∈ st.progresses ∧ p.id = pid := by
  unfold scopedProgress at h
  have h1 := List.mem_of_find?_eq_some h
  have h2 := List.find?_some h
  simp only [Bool.and_eq_true, beq_iff_eq] at h2
  exact ⟨h1, h2.1⟩

theorem progressCreate_ok {caller gid : ℕ} {a : ℚ} {st st2 : GoalsState}
    (h : progressCreate caller gid a st = .ok st2) :
    st2.progresses = st.progresses ++ [⟨nextProgressId st, gid, a⟩] ∧
      st2.goals = addToGoal st.goals gid a := by
  unfold progressCreate at h
  cases hg : lookupGoal st gid with
  | none => simp only [hg] at h; simp at h
  | some g =>
    simp only [hg] at h
    by_cases hu : g.user ≠ caller
    · rw [if_pos hu] at h; simp at h
    · rw [if_neg hu] at h
      injection h with h2
      subst h2
      exact ⟨rfl, rfl⟩

theorem progressUpdate_ok {caller pid gid : ℕ} {a : ℚ} {st st2 : GoalsState}
    (h : progressUpdate caller pid gid a st = .ok st2) :
    ∃ p, scopedProgress st caller pid = some p ∧
      st2.progresses = st.progresses.map (fun q => if q.id == pid then ⟨q.id, gid, a⟩ else q) ∧
      st2.goals = addToGoal st.goals gid (a - p.amount) := by
  unfold progressUpdate at h
  cases hs : scopedProgress st caller pid with
  | none => simp only [hs] at h; simp at h
  | some p =>
    simp only [hs] at h
    cases hg : lookupGoal st gid with
    | none => simp only [hg] at h; simp at h
    | some g =>
      simp only [hg] at h
      injection h with h2
      subst h2
      exact ⟨p, rfl, rfl, rfl⟩

theorem progressDelete_ok {caller pid : ℕ} {st st2 : GoalsState}
    (h : progressDelete caller pid st = .ok st2) :
    ∃ p, scopedProgress st caller pid = some p ∧
      st2.progresses = st.progresses.filter (fun q => q.id != pid) ∧
      st2.goals = addToGoal st.goals p.goal (-p.amount) := by
  unfold progressDelete at h
  cases hs : scopedProgress st caller pid with
  | none => simp only [hs] at h; simp at h
  | some p =>
    simp only [hs] at h
    injection h with h2
    subst h2
    exact ⟨p, rfl, rfl, rfl⟩

theorem applyOp_sync (op : ProgressOp) (st : GoalsState)
    (hwf : st.progresses.Pairwise (fun x y => x.id ≠ y.id))
    (hsync : ∀ g ∈ st.goals, g.current_value = sumAmounts st.progresses g.id)
    (hkeep : keepsGoalField op st = true) :
    (applyOp op st).progresses.Pairwise (fun x y => x.id ≠ y.id) ∧
      ∀ g ∈ (applyOp op st).goals,
        g.current_value = sumAmounts (applyOp op st).progresses g.id := by
  rcases op with ⟨caller, gid, a⟩ | ⟨caller, pid, gid, a⟩ | ⟨caller, pid⟩
  · cases hres : progressCreate caller gid a st with
    | error err => simp only [applyOp, hres]; exact ⟨hwf, hsync⟩
    | ok st2 =>
      simp only [applyOp, hres]
      obtain ⟨hps, hgs⟩ := progressCreate_ok hres
      rw [hps, hgs]
      constructor
      · rw [List.pairwise_append]
        refine ⟨hwf, List.pairwise_singleton _ _, ?_⟩
        intro x hx y hy
        rw [List.mem_singleton] at hy
        subst hy
        have h2 := le_foldr_max_progressId st.progresses x hx
        have h3 : (⟨nextProgressId st, gid, a⟩ : ProgressRec).id = nextProgressId st := rfl
        rw [h3]
        unfold nextProgressId
        omega
      · intro g2 hg2
        obtain ⟨g0, hg0, hid, hcv⟩ := addToGoal_mem g2 hg2
        rw [hcv, hid, sumAmounts_append, ← hsync g0 hg0]
        by_cases h : g0.id = gid
        · rw [if_pos h, if_pos h.symm]
        · rw [if_neg h, if_neg (fun h2 => h h2.symm)]
  · cases hres : progressUpdate caller pid gid a st with
    | error err => simp only [applyOp, hres]; exact ⟨hwf, hsync⟩
    | ok st2 =>
      simp only [applyOp, hres]
      obtain ⟨p, hs, hps, hgs⟩ := progressUpdate_ok hres
      obtain ⟨hmem, hpid⟩ := scopedProgress_fact hs
      have hgoal : p.goal = gid := by
        simp only [keepsGoalField, hs, beq_iff_eq] at hkeep
        exact hkeep
      subst hpid
      rw [hps, hgs]
      constructor
      · rw [List.pairwise_map]
        refine hwf.imp ?_
        intro x y hxy
        have hx : (if x.id == p.id then (⟨x.id, gid, a⟩ : ProgressRec) else x).id = x.id := by
          split <;> rfl
        have hy : (if y.id == p.id then (⟨y.id, gid, a⟩ : ProgressRec) else y).id = y.id := by
          split <;> rfl
        rw [hx, hy]
        exact hxy
      · intro g2 hg2
        obtain ⟨g0, hg0, hid, hcv⟩ := addToGoal_mem g2 hg2
        rw [hcv, hid, sumAmounts_update p gid a g0.id st.progresses hwf hmem,
          ← hsync g0 hg0, hgoal]
        by_cases h : g0.id = gid
        · rw [if_pos h, if_pos h.symm, if_pos h.symm]
          ring
        · rw [if_neg h, if_neg (fun h2 => h h2.symm), if_neg (fun h2 => h h2.symm)]
          ring
  · cases hres : progressDelete caller pid st with
    | error err => simp only [applyOp, hres]; exact ⟨hwf, hsync⟩
    | ok st2 =>
      simp only [applyOp, hres]
      obtain ⟨p, hs, hps, hgs⟩ := progressDelete_ok hres
      obtain ⟨hmem, hpid⟩ := scopedProgress_fact hs
      subst hpid
      rw [hps, hgs]
      constructor
      · exact hwf.filter _
      · intro g2 hg2
        obtain ⟨g0, hg0, hid, hcv⟩ := addToGoal_mem g2 hg2
        rw [hcv, hid, sumAmounts_erase p g0.id st.progresses hwf hmem, ← hsync g0 hg0]
        by_cases h : g0.id = p.goal
        · rw [if_pos h, if_pos h.symm]
          ring
        · rw [if_neg h, if_neg (fun h2 => h h2.symm)]
          ring

theorem runOps_sync (ops : List ProgressOp) :
    ∀ st : GoalsState,
      st.progresses.Pairwise (fun x y => x.id ≠ y.id) →
      (∀ g ∈ st.goals, g.current_value = sumAmounts st.progresses g.id) →
      safeOps ops st = true →
      (runOps ops st).progresses.Pairwise (fun x y => x.id ≠ y.id) ∧
        ∀ g ∈ (runOps ops st).goals,
          g.current_value = sumAmounts (runOps ops st).progresses g.id := by
  induction ops with
  | nil => intro st h1 h2 _; exact ⟨h1, h2⟩
  | cons op rest ih =>
    intro st h1 h2 hsafe
    simp only [safeOps, Bool.and_eq_true] at hsafe
    have hstep := applyOp_sync op st h1 h2 hsafe.1
    exact ih (applyOp op st) hstep.1 hstep.2 hsafe.2

/-- C1 (amended): from a well-formed state satisfying the sync invariant —
every goal's current_value equals the sum of the amounts of its progress
entries — any sequence of GoalProgress requests in which every successful
update keeps the target entry's goal field unchanged preserves the
invariant (failed requests leave the state unchanged by construction).  An
update that moves an entry to a different goal can break the invariant, see
the counterexample. -/
theorem claim_C1_progress_sync :
    ∀ (ops : List ProgressOp) (st : GoalsState),
      checkWF st = true → checkSync st = true → safeOps ops st = true →
      checkSync (runOps ops st) = true := by
  intro ops st h1 h2 h3
  simp only [checkWF, decide_eq_true_eq] at h1
  simp only [checkSync, List.all_eq_true, beq_iff_eq] at h2 ⊢
  exact (runOps_sync ops st h1 h2 h3).2

/-- C1 (counterexample): two goals of the same user, one progress entry of
amount 5 created on goal 1, then updated to point at goal 2 with the amount
unchanged: the delta 0 is applied to goal 2 while goal 1 is never adjusted,
so the state satisfies the invariant before the sequence and violates it
after. -/
theorem claim_C1_counterexample :
    checkSync ⟨[⟨1, 1, 0⟩, ⟨2, 1, 0⟩], []⟩ = true ∧
      checkSync (runOps [.create 1 1 5, .update 1 1 2 5]
        ⟨[⟨1, 1, 0⟩, ⟨2, 1, 0⟩], []⟩) = false := by
  constructor
  · rfl
  · norm_num [checkSync, runOps, applyOp, progressCreate, progressUpdate, scopedProgress,
      lookupGoal, progressOwner, addToGoal, nextProgressId, sumAmounts,
      List.find?_cons_of_pos, List.find?_cons_of_neg, List.foldl, List.foldr,
      List.filter, List.map, List.all]

theorem claim_C1_progress_sync_witness :
    (checkWF ⟨[⟨1, 1, 0⟩], []⟩ = true ∧ checkSync ⟨[⟨1, 1, 0⟩], []⟩ = true ∧
      safeOps [.create 1 1 5, .delete 1 1] ⟨[⟨1, 1, 0⟩], []⟩ = true) ∧
      checkSync (runOps [.create 1 1 5, .delete 1 1] ⟨[⟨1, 1, 0⟩], []⟩) = true :=
  ⟨⟨by decide, by decide, by decide⟩,
    claim_C1_progress_sync [.create 1 1 5, .delete 1 1] ⟨[⟨1, 1, 0⟩], []⟩
      (by decide) (by decide) (by decide)⟩

end HabitTracker
